import Mathlib

/-!
# Verification of `FixedQueue<ReportedSpan>` and of three `lcb_st` members

Sources embedded here:

* `src/deps/lcb/src/tracing/tracing-internal.h` : `Span::duration`, `ReportedSpan`,
  `FixedQueue`
* `src/deps/lcb/src/internal.h` : `lcb_st::bootstrap`, `lcb_st::getConfig`, `lcb_st::map_key`

## Embedding

* A `std::vector<ReportedSpan>` is a list; positions are natural numbers.
* `uint64_t duration` of a `ReportedSpan` is a natural number: these durations
  are only compared, never computed with, so every statement over all natural
  numbers covers all 64-bit values.  `Span::duration()` does compute: there the
  subtraction is taken modulo `2 ^ 64`.
* `FixedQueue` is a thin layer over the C++ standard heap algorithms
  `std::push_heap`, `std::sort_heap` and `std::make_heap`, which belong to the
  standard library and not to the repository.  They are embedded as the classic
  array algorithms over `ReportedSpan::operator<`: sift-up for `push_heap`,
  bottom-up construction by sift-down for `make_heap`, repeated pop of the
  maximum for `sort_heap`.  Their contracts (the result is a permutation; the
  result of `push_heap` and `make_heap` is a heap; `sort_heap` sorts a heap in
  ascending order) are proved below, and the properties of the queue are derived
  from these contracts.  The functions are total: on a range that is not a heap
  they still return a permutation of it, as the usual implementations do.
* Loops are recursions on an explicit iteration bound; the bounds used are
  never exhausted (`siftUp_fuel`, `siftDown_fuel`).
* A method that can read `front()` of an empty vector, or dereference a null
  pointer, returns an `Option`; `none` stands for that event.
* Functions and constants of the library that are defined outside the two
  source files (`lcb::Bootstrap`, `LCB_ERR_REQUEST_CANCELED`, `lcbvb_map_key`)
  are parameters.
-/

namespace lcb
namespace trace

/-! ## `Span` -/

/-- The class `Span`, reduced to its scalar fields: `std::string m_opname`,
`uint64_t m_span_id`, `uint64_t m_start`, `uint64_t m_finish` and
`bool m_orphaned`.  The pointers `m_tracer` and `m_parent` and the JSON value
`tags` play no part in `duration()` and are left out.  A 64-bit field is a
natural number below `2 ^ 64`. -/
structure Span where
  m_opname : String
  m_span_id : Nat
  m_start : Nat
  m_finish : Nat
  m_orphaned : Bool
deriving DecidableEq, Repr

/-- The method `uint64_t duration()`: `return m_finish - m_start;`, the
subtraction of `uint64_t`, which wraps around modulo `2 ^ 64`. -/
def Span.duration (s : Span) : Nat :=
  (s.m_finish + (2 ^ 64 - s.m_start % 2 ^ 64)) % 2 ^ 64

/-! ## `ReportedSpan` -/

/-- The struct `ReportedSpan`: a `uint64_t duration` and a `std::string payload`.
The duration is only ever compared, never computed with, so it is embedded as
a natural number. -/
structure ReportedSpan where
  duration : Nat
  payload : String
deriving DecidableEq, Repr

/-- The member `bool operator<(const ReportedSpan &rhs) const`:
`return duration < rhs.duration;`. -/
def ReportedSpan.lt (a rhs : ReportedSpan) : Bool :=
  decide (a.duration < rhs.duration)

/-! ## The standard heap algorithms -/

/-- Exchange of the elements at positions `i` and `j` (`std::iter_swap`). -/
def swap (xs : List ReportedSpan) (i j : Nat) : List ReportedSpan :=
  match xs[i]?, xs[j]? with
  | some a, some b => (xs.set i b).set j a
  | _, _ => xs

/-- The comparison `comp(first + i, first + j)`, that is `xs[i] < xs[j]`. -/
def less (xs : List ReportedSpan) (i j : Nat) : Bool :=
  match xs[i]?, xs[j]? with
  | some a, some b => a.lt b
  | _, _ => false

/-- Sift-up loop of `std::push_heap`: while the element at `i` is not the root
and its parent `(i - 1) / 2` is less than it, move it up.  The first argument
bounds the number of iterations. -/
def siftUp : Nat → List ReportedSpan → Nat → List ReportedSpan
  | 0, xs, _ => xs
  | fuel + 1, xs, i =>
    if i = 0 then xs
    else if less xs ((i - 1) / 2) i then
      siftUp fuel (swap xs ((i - 1) / 2) i) ((i - 1) / 2)
    else xs

/-- The algorithm `std::push_heap(first, last)`: the last element is sifted up
into the heap formed by the elements before it. -/
def push_heap (xs : List ReportedSpan) : List ReportedSpan :=
  siftUp xs.length xs (xs.length - 1)

/-- Sift-down loop (heap adjustment) on the range `[0, n)`: while the element
at `i` has a child in the range and is less than its larger child, exchange
them.  The first argument bounds the number of iterations. -/
def siftDown : Nat → List ReportedSpan → Nat → Nat → List ReportedSpan
  | 0, xs, _, _ => xs
  | fuel + 1, xs, n, i =>
    if 2 * i + 1 < n then
      let c := if 2 * i + 2 < n && less xs (2 * i + 1) (2 * i + 2)
        then 2 * i + 2 else 2 * i + 1
      if less xs i c then siftDown fuel (swap xs i c) n c else xs
    else xs

/-- The loop of `std::make_heap`: adjust the heap at each parent index,
from the given one down to the root. -/
def heapify : Nat → List ReportedSpan → List ReportedSpan
  | 0, xs => siftDown xs.length xs xs.length 0
  | i + 1, xs => heapify i (siftDown xs.length xs xs.length (i + 1))

/-- The algorithm `std::make_heap(first, last)`. -/
def make_heap (xs : List ReportedSpan) : List ReportedSpan :=
  if xs.length < 2 then xs else heapify ((xs.length - 2) / 2) xs

/-- The loop of `std::sort_heap`: while the heap `[0, n)` has more than one
element, pop its maximum to position `n - 1`. -/
def sortLoop : Nat → List ReportedSpan → List ReportedSpan
  | 0, xs => xs
  | n + 1, xs => if n = 0 then xs else sortLoop n (siftDown n (swap xs 0 n) n 0)

/-- The algorithm `std::sort_heap(first, last)`. -/
def sort_heap (xs : List ReportedSpan) : List ReportedSpan :=
  sortLoop xs.length xs

/-! ## `FixedQueue<ReportedSpan>` -/

/-- The class template `FixedQueue<T>` at `T = ReportedSpan`: the fields
`size_t m_capacity` and `std::vector<T> m_items`. -/
structure FixedQueue where
  m_capacity : Nat
  m_items : List ReportedSpan
deriving DecidableEq, Repr

namespace FixedQueue

/-- The constructor `explicit FixedQueue(size_t capacity)`. -/
def new (capacity : Nat) : FixedQueue :=
  { m_capacity := capacity, m_items := [] }

/-- The method `void push(T item)`.  The result is `none` exactly when
`m_items.front()` is evaluated on an empty vector. -/
def push (q : FixedQueue) (item : ReportedSpan) : Option FixedQueue :=
  if q.m_items.length < q.m_capacity then
    some { q with m_items := push_heap (q.m_items ++ [item]) }
  else
    let sorted := sort_heap q.m_items
    match sorted.head? with
    | none => none
    | some front =>
      some { q with
        m_items := make_heap (if front.lt item then sorted.set 0 item else sorted) }

/-- The method `size_t size()`. -/
def size (q : FixedQueue) : Nat :=
  q.m_items.length

/-- The method `bool empty()`. -/
def empty (q : FixedQueue) : Bool :=
  q.m_items.isEmpty

/-- The method `void clear()`. -/
def clear (q : FixedQueue) : FixedQueue :=
  { q with m_items := [] }

/-- The method `std::vector<T> &get_sorted()`: the vector is sorted in place
and a reference to it is returned, so the result is the new queue state; the
returned vector is its `m_items`. -/
def get_sorted (q : FixedQueue) : FixedQueue :=
  { q with m_items := sort_heap q.m_items }

/-- A sequence of `push` calls, in order; `none` as soon as one of them fails. -/
def pushAll : FixedQueue → List ReportedSpan → Option FixedQueue
  | q, [] => some q
  | q, s :: ss =>
    match q.push s with
    | none => none
    | some q' => pushAll q' ss

/-- The three state-changing operations of the class. -/
inductive Op where
  | push (item : ReportedSpan)
  | get_sorted
  | clear
deriving DecidableEq, Repr

/-- One operation applied to a queue. -/
def step (q : FixedQueue) : Op → Option FixedQueue
  | Op.push item => q.push item
  | Op.get_sorted => some q.get_sorted
  | Op.clear => some q.clear

/-- A sequence of operations, in order; `none` as soon as one of them fails. -/
def run : FixedQueue → List Op → Option FixedQueue
  | q, [] => some q
  | q, op :: ops =>
    match q.step op with
    | none => none
    | some q' => run q' ops

end FixedQueue

end trace

/-! ## `lcb_st` (internal.h) -/

/-- The class `lcb::clconfig::ConfigInfo` is declared outside these sources;
the only member read here is `vbc`, the pointer to the vbucket configuration.
`Vbc` stands for what that pointer designates. -/
structure ConfigInfo (Vbc : Type) where
  vbc : Vbc

/-- The calls `lcb_st::bootstrap` can make on the bootstrap object:
`new lcb::Bootstrap(this)` and `bs_state->bootstrap(options)`. -/
inductive BootstrapCall where
  | construct
  | bootstrap (options : Nat)
deriving DecidableEq, Repr

/-- The fields of `struct lcb_st` that `bootstrap`, `getConfig` and `map_key`
read or write: the pointers `cur_configinfo` and `bs_state` (`none` for a null
pointer) and the `int destroying`.  All remaining fields are kept together in
`others`. -/
structure lcb_st (Vbc Bootstrap Others : Type) where
  cur_configinfo : Option (ConfigInfo Vbc)
  bs_state : Option Bootstrap
  destroying : Int
  others : Others

/-- What `lcb_st::bootstrap` uses from outside these sources: the status code
`LCB_ERR_REQUEST_CANCELED`, the constructor `lcb::Bootstrap(lcb_INSTANCE *)`
and the method `lcb::Bootstrap::bootstrap(unsigned)` (defined in bootstrap.cc).
Both receive the instance and may change any of it. -/
structure BootstrapApi (Status Vbc Bootstrap Others : Type) where
  LCB_ERR_REQUEST_CANCELED : Status
  construct : lcb_st Vbc Bootstrap Others → Bootstrap × lcb_st Vbc Bootstrap Others
  bootstrap : Bootstrap → Nat → lcb_st Vbc Bootstrap Others →
    Status × lcb_st Vbc Bootstrap Others

namespace lcb_st

/-- The method `lcb_STATUS bootstrap(unsigned options)`.  The result is the
returned status, the instance after the call and the calls made on the
bootstrap object, in order. -/
def bootstrap {Status Vbc Bootstrap Others : Type}
    (api : BootstrapApi Status Vbc Bootstrap Others)
    (self : lcb_st Vbc Bootstrap Others) (options : Nat) :
    Status × lcb_st Vbc Bootstrap Others × List BootstrapCall :=
  if self.destroying ≠ 0 then
    (api.LCB_ERR_REQUEST_CANCELED, self, [])
  else
    match self.bs_state with
    | none =>
      let c := api.construct self
      let r := api.bootstrap c.1 options { c.2 with bs_state := some c.1 }
      (r.1, r.2, [BootstrapCall.construct, BootstrapCall.bootstrap options])
    | some bs =>
      let r := api.bootstrap bs options self
      (r.1, r.2, [BootstrapCall.bootstrap options])

end lcb_st

namespace trace

/-! ## Notions used to state the properties -/

/-- Duration of the element at position `i` (zero outside the list). -/
def key (xs : List ReportedSpan) (i : Nat) : Nat :=
  match xs[i]? with
  | some a => a.duration
  | none => 0

/-- The range `[0, n)` of `xs` is a max-heap (`std::is_heap`): no element is
greater than its parent. -/
def IsHeap (xs : List ReportedSpan) (n : Nat) : Prop :=
  ∀ c, 0 < c → c < n → key xs c ≤ key xs ((c - 1) / 2)

/-- In the range `[0, n)`, every element whose parent has index at least `k`
is not greater than its parent. -/
def HeapFrom (xs : List ReportedSpan) (n k : Nat) : Prop :=
  ∀ c, 0 < c → c < n → k ≤ (c - 1) / 2 → key xs c ≤ key xs ((c - 1) / 2)

/-- The durations held by the queue, in vector order. -/
def FixedQueue.durations (q : FixedQueue) : List Nat :=
  q.m_items.map (·.duration)

/-- Representation invariant of the queue between two `push` calls: the vector
is a max-heap and holds at most `m_capacity` elements. -/
def FixedQueue.Valid (q : FixedQueue) : Prop :=
  IsHeap q.m_items q.m_items.length ∧ q.m_items.length ≤ q.m_capacity

/-- The `k` largest members of `ds`, with multiplicity: the first `k` members
of `ds` sorted in descending order. -/
def largest (k : Nat) (ds : List Nat) : List Nat :=
  (ds.insertionSort (· ≥ ·)).take k

/-- Invariant linking the queue to the durations `hist` pushed so far: the
queue holds `min K hist.length` of them, and none of the others exceeds a
retained one. -/
def FixedQueue.Tracks (K : Nat) (q : FixedQueue) (hist : List Nat) : Prop :=
  q.m_capacity = K ∧ q.Valid ∧ q.m_items.length = min K hist.length ∧
    ∃ R : List Nat, (q.durations ++ R).Perm hist ∧ ∀ a ∈ q.durations, ∀ r ∈ R, r ≤ a

/-! # Supporting lemmas -/

/-! ## Indexing facts -/

theorem length_swap (xs : List ReportedSpan) (i j : Nat) :
    (swap xs i j).length = xs.length := by
  unfold swap
  split <;> simp

theorem getElem?_swap (xs : List ReportedSpan) (i j k : Nat)
    (hi : i < xs.length) (hj : j < xs.length) :
    (swap xs i j)[k]? = if k = j then xs[i]? else if k = i then xs[j]? else xs[k]? := by
  unfold swap
  rw [List.getElem?_eq_getElem hi, List.getElem?_eq_getElem hj]
  simp only [List.getElem?_set]
  by_cases h1 : k = j
  · subst h1
    simp [hj]
  · by_cases h2 : k = i
    · subst h2
      simp [hi, Ne.symm h1, h1]
    · simp [h1, h2, Ne.symm h1, Ne.symm h2]

theorem key_swap (xs : List ReportedSpan) (i j k : Nat)
    (hi : i < xs.length) (hj : j < xs.length) :
    key (swap xs i j) k = if k = j then key xs i else if k = i then key xs j else key xs k := by
  unfold key
  rw [getElem?_swap xs i j k hi hj]
  split_ifs <;> simp_all

theorem less_iff (xs : List ReportedSpan) (i j : Nat)
    (hi : i < xs.length) (hj : j < xs.length) :
    less xs i j = true ↔ key xs i < key xs j := by
  unfold less key
  rw [List.getElem?_eq_getElem hi, List.getElem?_eq_getElem hj]
  simp [ReportedSpan.lt]

theorem swap_perm (xs : List ReportedSpan) (i j : Nat) : (swap xs i j).Perm xs := by
  unfold swap
  split
  · rename_i a b ha hb
    obtain ⟨hi, hia⟩ := List.getElem?_eq_some.mp ha
    obtain ⟨hj, hjb⟩ := List.getElem?_eq_some.mp hb
    rw [List.perm_iff_count]
    intro c
    rw [List.count_set _ _ _ _ (by simpa using hj), List.count_set _ _ _ _ hi]
    have hmem : a ∈ xs := hia ▸ List.getElem_mem hi
    have hpos : a = c → 0 < xs.count c := fun h => h ▸ List.count_pos_iff.mpr hmem
    rw [List.getElem_set]
    by_cases hij : i = j
    · subst hij
      have hab : a = b := by rw [← hia, ← hjb]
      subst hab
      by_cases hac : a = c
      · have := hpos hac
        simp [hia, hac]
        omega
      · simp [hia, hac]
    · simp only [hij, if_false, hia, hjb]
      by_cases hac : a = c <;> by_cases hbc : b = c
      · have := hpos hac
        simp [hac, hbc]
        omega
      · have := hpos hac
        simp [hac, hbc]
        omega
      · simp [hac, hbc]
      · simp [hac, hbc]
  · exact List.Perm.refl _

/-! ## The algorithms permute their argument -/

theorem siftUp_perm (fuel : Nat) : ∀ (xs : List ReportedSpan) (i : Nat),
    (siftUp fuel xs i).Perm xs := by
  induction fuel with
  | zero => intro xs i; exact List.Perm.refl _
  | succ fuel ih =>
    intro xs i
    simp only [siftUp]
    split_ifs
    · exact List.Perm.refl _
    · exact (ih _ _).trans (swap_perm xs _ _)
    · exact List.Perm.refl _

theorem siftDown_perm (fuel : Nat) : ∀ (xs : List ReportedSpan) (n i : Nat),
    (siftDown fuel xs n i).Perm xs := by
  induction fuel with
  | zero => intro xs n i; exact List.Perm.refl _
  | succ fuel ih =>
    intro xs n i
    simp only [siftDown]
    split_ifs
    all_goals first
      | exact List.Perm.refl _
      | exact (ih _ _ _).trans (swap_perm xs _ _)

theorem heapify_perm (i : Nat) : ∀ xs : List ReportedSpan, (heapify i xs).Perm xs := by
  induction i with
  | zero => intro xs; exact siftDown_perm _ _ _ _
  | succ i ih => intro xs; exact (ih _).trans (siftDown_perm _ _ _ _)

theorem sortLoop_perm (n : Nat) : ∀ xs : List ReportedSpan, (sortLoop n xs).Perm xs := by
  induction n with
  | zero => intro xs; exact List.Perm.refl _
  | succ n ih =>
    intro xs
    simp only [sortLoop]
    split_ifs
    · exact List.Perm.refl _
    · exact (ih _).trans ((siftDown_perm _ _ _ _).trans (swap_perm xs _ _))

theorem push_heap_perm (xs : List ReportedSpan) : (push_heap xs).Perm xs :=
  siftUp_perm _ _ _

theorem make_heap_perm (xs : List ReportedSpan) : (make_heap xs).Perm xs := by
  unfold make_heap
  split_ifs
  · exact List.Perm.refl _
  · exact heapify_perm _ _

theorem sort_heap_perm (xs : List ReportedSpan) : (sort_heap xs).Perm xs :=
  sortLoop_perm _ _

theorem siftDown_length (fuel : Nat) (xs : List ReportedSpan) (n i : Nat) :
    (siftDown fuel xs n i).length = xs.length :=
  (siftDown_perm fuel xs n i).length_eq

/-! ## The iteration bounds are never reached

Both loops move the index strictly (to the parent, or to a child), so the
bounds passed by `push_heap`, `make_heap` and `sort_heap` are never exhausted:
one more unit of fuel changes nothing, on any list. -/

theorem siftUp_succ (fuel : Nat) (xs : List ReportedSpan) (i : Nat) :
    siftUp (fuel + 1) xs i =
      if i = 0 then xs
      else if less xs ((i - 1) / 2) i = true then
        siftUp fuel (swap xs ((i - 1) / 2) i) ((i - 1) / 2)
      else xs := rfl

theorem siftUp_fuel (fuel : Nat) : ∀ (xs : List ReportedSpan) (i : Nat),
    i ≤ fuel → siftUp (fuel + 1) xs i = siftUp fuel xs i := by
  induction fuel with
  | zero =>
    intro xs i hi
    have h0 : i = 0 := by omega
    rw [siftUp_succ, if_pos h0]
    rfl
  | succ fuel ih =>
    intro xs i hi
    rw [siftUp_succ (fuel + 1) xs i, siftUp_succ fuel xs i]
    split_ifs with h0 hl
    · rfl
    · exact ih _ _ (by omega)
    · rfl

theorem siftDown_unfold (fuel : Nat) (xs : List ReportedSpan) (n i : Nat) :
    siftDown (fuel + 1) xs n i =
      if 2 * i + 1 < n then
        if less xs i (if (decide (2 * i + 2 < n) && less xs (2 * i + 1) (2 * i + 2)) = true
            then 2 * i + 2 else 2 * i + 1) = true then
          siftDown fuel
            (swap xs i (if (decide (2 * i + 2 < n) && less xs (2 * i + 1) (2 * i + 2)) = true
              then 2 * i + 2 else 2 * i + 1)) n
            (if (decide (2 * i + 2 < n) && less xs (2 * i + 1) (2 * i + 2)) = true
              then 2 * i + 2 else 2 * i + 1)
        else xs
      else xs := rfl

theorem siftDown_fuel (fuel : Nat) : ∀ (xs : List ReportedSpan) (n i : Nat),
    n ≤ fuel + i → siftDown (fuel + 1) xs n i = siftDown fuel xs n i := by
  induction fuel with
  | zero =>
    intro xs n i hi
    rw [siftDown_unfold, if_neg (by omega)]
    rfl
  | succ fuel ih =>
    intro xs n i hi
    rw [siftDown_unfold (fuel + 1) xs n i, siftDown_unfold fuel xs n i]
    split_ifs
    all_goals first
      | rfl
      | (apply ih; omega)

/-! ## Heap predicates -/

theorem heapFrom_zero (xs : List ReportedSpan) (n : Nat) :
    HeapFrom xs n 0 ↔ IsHeap xs n := by
  unfold HeapFrom IsHeap
  constructor
  · intro h c h1 h2; exact h c h1 h2 (Nat.zero_le _)
  · intro h c h1 h2 _; exact h c h1 h2

/-- The root of a heap is a maximum of the heap. -/
theorem IsHeap.le_root {xs : List ReportedSpan} {n : Nat} (h : IsHeap xs n) :
    ∀ c, c < n → key xs c ≤ key xs 0 := by
  intro c
  induction c using Nat.strong_induction_on with
  | _ c ih =>
    intro hc
    by_cases h0 : c = 0
    · subst h0; exact Nat.le_refl _
    · have hp : (c - 1) / 2 < c := by omega
      have h1 := h c (by omega) hc
      have h2 := ih _ hp (by omega)
      omega

/-! ## `push_heap` extends a heap by its last element -/

/-- Invariant of the sift-up loop: the range `[0, N)` is a heap except at
position `i`, whose children are already below the parent of `i`. -/
theorem siftUp_heap (N fuel : Nat) : ∀ (xs : List ReportedSpan) (i : Nat),
    i ≤ fuel → i < N → N ≤ xs.length →
    (∀ c q, 0 < c → c < N → q = (c - 1) / 2 → c ≠ i → key xs c ≤ key xs q) →
    (∀ c q, 0 < c → c < N → (c - 1) / 2 = i → 0 < i → q = (i - 1) / 2 →
      key xs c ≤ key xs q) →
    IsHeap (siftUp fuel xs i) N := by
  induction fuel with
  | zero =>
    intro xs i hi _ _ ha _ c h1 h2
    simp only [siftUp]
    exact ha c _ h1 h2 rfl (by omega)
  | succ fuel ih =>
    intro xs i hi hiN hN ha hb
    simp only [siftUp]
    by_cases h0 : i = 0
    · rw [if_pos h0]
      intro c h1 h2
      exact ha c _ h1 h2 rfl (by omega)
    · rw [if_neg h0]
      by_cases hl : less xs ((i - 1) / 2) i = true
      · rw [if_pos hl]
        have hlt := (less_iff xs _ _ (by omega) (by omega)).mp hl
        apply ih
        · omega
        · omega
        · rw [length_swap]; exact hN
        · intro c q h1 h2 hq h3
          rw [key_swap xs _ _ _ (by omega) (by omega), key_swap xs _ _ _ (by omega) (by omega)]
          have A1 := ha c q h1 h2 hq
          have A2 := ha c ((i - 1) / 2) h1 h2
          have B1 := hb c ((i - 1) / 2) h1 h2
          split_ifs <;> omega
        · intro c q h1 h2 hc hp hq
          rw [key_swap xs _ _ _ (by omega) (by omega), key_swap xs _ _ _ (by omega) (by omega)]
          have A1 := ha c ((i - 1) / 2) h1 h2
          have A2 := ha ((i - 1) / 2) q hp (by omega) hq
          split_ifs <;> omega
      · rw [if_neg hl]
        have hlt := (less_iff xs ((i - 1) / 2) i (by omega) (by omega)).not.mp hl
        intro c h1 h2
        have A1 := ha c _ h1 h2 rfl
        by_cases hci : c = i
        · subst hci; omega
        · exact A1 hci

/-- Contract of `std::push_heap`: if all but the last element form a heap,
the result is a heap. -/
theorem push_heap_isHeap (xs : List ReportedSpan) (h : IsHeap xs (xs.length - 1)) :
    IsHeap (push_heap xs) xs.length := by
  by_cases h0 : xs.length = 0
  · intro c _ h2; omega
  · unfold push_heap
    apply siftUp_heap
    · omega
    · omega
    · exact Nat.le_refl _
    · intro c q h1 h2 hq h3
      subst hq
      exact h c h1 (by omega)
    · intro c q h1 h2 hc _ _
      omega

/-! ## Heap adjustment -/

/-- One unfolding of the sift-down loop, with the larger child named. -/
theorem siftDown_succ (fuel : Nat) (xs : List ReportedSpan) (n i : Nat) :
    siftDown (fuel + 1) xs n i =
      if 2 * i + 1 < n then
        if 2 * i + 2 < n ∧ less xs (2 * i + 1) (2 * i + 2) = true then
          if less xs i (2 * i + 2) = true then
            siftDown fuel (swap xs i (2 * i + 2)) n (2 * i + 2)
          else xs
        else
          if less xs i (2 * i + 1) = true then
            siftDown fuel (swap xs i (2 * i + 1)) n (2 * i + 1)
          else xs
      else xs := by
  simp only [siftDown, Bool.and_eq_true, decide_eq_true_eq]
  split_ifs <;> rfl

/-- Invariant of the sift-down loop on `[0, n)`: among the elements whose
parent has index at least `k`, the heap order holds except below position `i`,
and the children of `i` are already below the parent of `i`. -/
theorem siftDown_heap (n k fuel : Nat) : ∀ (xs : List ReportedSpan) (i : Nat),
    n ≤ fuel + i → n ≤ xs.length →
    (∀ c q, 0 < c → c < n → q = (c - 1) / 2 → k ≤ q → q ≠ i → key xs c ≤ key xs q) →
    (∀ c q, 0 < c → c < n → (c - 1) / 2 = i → 0 < i → q = (i - 1) / 2 → k ≤ q →
      key xs c ≤ key xs q) →
    HeapFrom (siftDown fuel xs n i) n k := by
  induction fuel with
  | zero =>
    intro xs i hi _ ha _ c h1 h2 h3
    simp only [siftDown]
    exact ha c _ h1 h2 rfl h3 (by omega)
  | succ fuel ih =>
    intro xs i hi hN ha hb
    rw [siftDown_succ]
    have base : ∀ m, m = 2 * i + 1 ∨ m = 2 * i + 2 → m < n →
        (∀ c, c < n → (c - 1) / 2 = i → 0 < c → key xs c ≤ key xs m) →
        less xs i m = true →
        HeapFrom (siftDown fuel (swap xs i m) n m) n k := by
      intro m hm hmn hmax hl
      have hlt := (less_iff xs i m (by omega) (by omega)).mp hl
      apply ih
      · omega
      · rw [length_swap]; exact hN
      · intro c q h1 h2 hq hk hqm
        rw [key_swap xs _ _ _ (by omega) (by omega), key_swap xs _ _ _ (by omega) (by omega)]
        have A1 := ha c q h1 h2 hq hk
        have B1 := hb m q (by omega) hmn (by omega)
        have M1 := hmax c h2
        have E1 : q = i → key xs q = key xs i := fun h => by rw [h]
        split_ifs <;> omega
      · intro c q h1 h2 hc hp hq hk
        rw [key_swap xs _ _ _ (by omega) (by omega), key_swap xs _ _ _ (by omega) (by omega)]
        have A1 := ha c m h1 h2 (by omega) (by omega) (by omega)
        split_ifs <;> omega
    have stop : ∀ m, m < n → (m - 1) / 2 = i → 0 < m →
        (∀ c, c < n → (c - 1) / 2 = i → 0 < c → key xs c ≤ key xs m) →
        ¬ less xs i m = true → HeapFrom xs n k := by
      intro m hmn hmi hm0 hmax hl
      have hlt := (less_iff xs i m (by omega) (by omega)).not.mp hl
      intro c h1 h2 h3
      have A1 := ha c _ h1 h2 rfl h3
      have M1 := hmax c h2
      have E1 : (c - 1) / 2 = i → key xs ((c - 1) / 2) = key xs i := fun h => by rw [h]
      by_cases hci : (c - 1) / 2 = i
      · have := E1 hci
        have := M1 hci h1
        omega
      · exact A1 hci
    by_cases h2 : 2 * i + 1 < n
    · rw [if_pos h2]
      by_cases hr : 2 * i + 2 < n ∧ less xs (2 * i + 1) (2 * i + 2) = true
      · rw [if_pos hr]
        have hlr := (less_iff xs _ _ (by omega) (by omega)).mp hr.2
        have hmax : ∀ c, c < n → (c - 1) / 2 = i → 0 < c → key xs c ≤ key xs (2 * i + 2) := by
          intro c _ hc h0
          have E1 : c = 2 * i + 1 → key xs c = key xs (2 * i + 1) := fun h => by rw [h]
          have E2 : c = 2 * i + 2 → key xs c = key xs (2 * i + 2) := fun h => by rw [h]
          omega
        by_cases hl : less xs i (2 * i + 2) = true
        · rw [if_pos hl]
          exact base _ (Or.inr rfl) hr.1 hmax hl
        · rw [if_neg hl]
          exact stop _ hr.1 (by omega) (by omega) hmax hl
      · rw [if_neg hr]
        have hmax : ∀ c, c < n → (c - 1) / 2 = i → 0 < c → key xs c ≤ key xs (2 * i + 1) := by
          intro c hcn hc h0
          have E1 : c = 2 * i + 1 → key xs c = key xs (2 * i + 1) := fun h => by rw [h]
          have E2 : c = 2 * i + 2 → key xs c = key xs (2 * i + 2) := fun h => by rw [h]
          by_cases hrn : 2 * i + 2 < n
          · have hnl : ¬ less xs (2 * i + 1) (2 * i + 2) = true := fun h => hr ⟨hrn, h⟩
            have := (less_iff xs _ _ (by omega) (by omega)).not.mp hnl
            omega
          · omega
        by_cases hl : less xs i (2 * i + 1) = true
        · rw [if_pos hl]
          exact base _ (Or.inl rfl) h2 hmax hl
        · rw [if_neg hl]
          exact stop _ h2 (by omega) (by omega) hmax hl
    · rw [if_neg h2]
      intro c h1 hc h3
      exact ha c _ h1 hc rfl h3 (by omega)

/-- The sift-down loop on `[0, n)` leaves the positions from `n` on untouched
and only rearranges the positions below `n`. -/
theorem siftDown_frame (n fuel : Nat) : ∀ (xs : List ReportedSpan) (i : Nat),
    n ≤ xs.length →
    (∀ j, n ≤ j → key (siftDown fuel xs n i) j = key xs j) ∧
    (∀ a, a < n → ∃ b, b < n ∧ key (siftDown fuel xs n i) a = key xs b) := by
  induction fuel with
  | zero =>
    intro xs i _
    exact ⟨fun _ _ => rfl, fun a ha => ⟨a, ha, rfl⟩⟩
  | succ fuel ih =>
    intro xs i hN
    have same : (∀ j, n ≤ j → key xs j = key xs j) ∧
        (∀ a, a < n → ∃ b, b < n ∧ key xs a = key xs b) :=
      ⟨fun _ _ => rfl, fun a ha => ⟨a, ha, rfl⟩⟩
    have step : ∀ m, i < n → m < n →
        (∀ j, n ≤ j → key (siftDown fuel (swap xs i m) n m) j = key xs j) ∧
        (∀ a, a < n → ∃ b, b < n ∧ key (siftDown fuel (swap xs i m) n m) a = key xs b) := by
      intro m hi hm
      obtain ⟨f1, f2⟩ := ih (swap xs i m) m (by rw [length_swap]; exact hN)
      constructor
      · intro j hj
        rw [f1 j hj, key_swap xs _ _ _ (by omega) (by omega)]
        split_ifs <;> first | rfl | omega
      · intro a ha
        obtain ⟨b, hb, e⟩ := f2 a ha
        rw [e, key_swap xs _ _ _ (by omega) (by omega)]
        split_ifs
        · exact ⟨i, hi, rfl⟩
        · exact ⟨m, hm, rfl⟩
        · exact ⟨b, hb, rfl⟩
    rw [siftDown_succ]
    split_ifs with h1 h2 h3 h4
    · exact step _ (by omega) h2.1
    · exact same
    · exact step _ (by omega) h1
    · exact same
    · exact same

/-! ## `make_heap` builds a heap -/

theorem heapify_isHeap (i : Nat) : ∀ xs : List ReportedSpan,
    HeapFrom xs xs.length (i + 1) → IsHeap (heapify i xs) xs.length := by
  induction i with
  | zero =>
    intro xs h
    rw [heapify, ← heapFrom_zero]
    apply siftDown_heap
    · omega
    · exact Nat.le_refl _
    · intro c q h1 h2 hq _ hq0
      subst hq
      exact h c h1 h2 (by omega)
    · intro c q _ _ _ h0 _ _
      omega
  | succ i ih =>
    intro xs h
    rw [heapify]
    have hlen := siftDown_length xs.length xs xs.length (i + 1)
    have hk := ih (siftDown xs.length xs xs.length (i + 1))
    rw [hlen] at hk
    apply hk
    apply siftDown_heap
    · omega
    · exact Nat.le_refl _
    · intro c q h1 h2 hq hk hq0
      subst hq
      exact h c h1 h2 (by omega)
    · intro c q _ _ _ _ hq hk
      omega

/-- Contract of `std::make_heap`: the result is a heap, whatever the argument. -/
theorem make_heap_isHeap (xs : List ReportedSpan) : IsHeap (make_heap xs) xs.length := by
  unfold make_heap
  split_ifs with h
  · intro c h1 h2
    omega
  · apply heapify_isHeap
    intro c h1 h2 h3
    omega

/-! ## `sort_heap` sorts a heap in ascending order -/

theorem sortLoop_sorted (m : Nat) : ∀ xs : List ReportedSpan,
    IsHeap xs m → m ≤ xs.length →
    (∀ j, m ≤ j → j + 1 < xs.length → key xs j ≤ key xs (j + 1)) →
    (∀ i j, i < m → m ≤ j → j < xs.length → key xs i ≤ key xs j) →
    ∀ j, j + 1 < xs.length → key (sortLoop m xs) j ≤ key (sortLoop m xs) (j + 1) := by
  induction m with
  | zero =>
    intro xs _ _ hs _ j hj
    simp only [sortLoop]
    exact hs j (Nat.zero_le _) hj
  | succ n ih =>
    intro xs hh hm hs hp j hj
    simp only [sortLoop]
    by_cases hn : n = 0
    · rw [if_pos hn]
      subst hn
      by_cases hj0 : j = 0
      · subst hj0
        exact hp 0 1 (by omega) (by omega) (by omega)
      · exact hs j (by omega) hj
    · rw [if_neg hn]
      have hl1 : (swap xs 0 n).length = xs.length := length_swap _ _ _
      have ks : ∀ z, key (swap xs 0 n) z =
          if z = n then key xs 0 else if z = 0 then key xs n else key xs z :=
        fun z => key_swap xs 0 n z (by omega) (by omega)
      obtain ⟨f1, f2⟩ := siftDown_frame n n (swap xs 0 n) 0 (by omega)
      have hl2 : (siftDown n (swap xs 0 n) n 0).length = xs.length := by
        rw [siftDown_length, hl1]
      have hroot := hh.le_root
      have goal := ih (siftDown n (swap xs 0 n) n 0) ?_ ?_ ?_ ?_ j (by omega)
      · exact goal
      · rw [← heapFrom_zero]
        apply siftDown_heap
        · omega
        · omega
        · intro c q h1 h2 hq _ hq0
          rw [ks, ks]
          have := hh c h1 (by omega)
          subst hq
          split_ifs <;> omega
        · intro c q _ _ _ h0 _ _
          omega
      · omega
      · intro j' h1 h2
        rw [f1 j' h1, f1 (j' + 1) (by omega), ks, ks]
        have A := hs j'
        have B := hp 0 (n + 1) (by omega) (by omega)
        have E : j' = n → key xs (j' + 1) = key xs (n + 1) := fun h => by rw [h]
        split_ifs <;> first | omega | contradiction
      · intro a j' h1 h2 h3
        obtain ⟨b, hb, e⟩ := f2 a h1
        rw [e, f1 j' h2, ks, ks]
        have R1 := hroot b (by omega)
        have R2 := hroot n (by omega)
        have P1 := hp b j' (by omega)
        have P2 := hp n j' (by omega)
        split_ifs <;> omega

/-- Contract of `std::sort_heap`, on positions: a heap is turned into a
sequence in which every duration is at most the next one. -/
theorem sort_heap_key_le (xs : List ReportedSpan) (h : IsHeap xs xs.length) :
    ∀ j, j + 1 < xs.length → key (sort_heap xs) j ≤ key (sort_heap xs) (j + 1) := by
  unfold sort_heap
  apply sortLoop_sorted _ _ h (Nat.le_refl _)
  · intro j _ _; omega
  · intro i j _ _ _; omega

theorem key_cons_zero (a : ReportedSpan) (l : List ReportedSpan) :
    key (a :: l) 0 = a.duration := by
  simp [key]

theorem key_cons_succ (a : ReportedSpan) (l : List ReportedSpan) (j : Nat) :
    key (a :: l) (j + 1) = key l j := by
  simp [key]

theorem chain_of_key_le : ∀ l : List ReportedSpan,
    (∀ j, j + 1 < l.length → key l j ≤ key l (j + 1)) →
    List.Chain' (· ≤ ·) (l.map (·.duration))
  | [], _ => List.chain'_nil
  | [_], _ => List.chain'_singleton _
  | a :: b :: l, h => by
    have h0 := h 0 (by simp)
    rw [key_cons_succ, key_cons_zero, key_cons_zero] at h0
    have ht : ∀ j, j + 1 < (b :: l).length → key (b :: l) j ≤ key (b :: l) (j + 1) := by
      intro j hj
      have := h (j + 1) (by simpa using hj)
      rwa [key_cons_succ, key_cons_succ] at this
    have ih := chain_of_key_le (b :: l) ht
    simp only [List.map_cons] at ih ⊢
    exact List.Chain'.cons h0 ih

/-- Contract of `std::sort_heap`: a heap is turned into a sequence sorted in
ascending order of duration. -/
theorem sort_heap_sorted (xs : List ReportedSpan) (h : IsHeap xs xs.length) :
    List.Sorted (· ≤ ·) ((sort_heap xs).map (·.duration)) := by
  have hlen : (sort_heap xs).length = xs.length := (sort_heap_perm xs).length_eq
  have hc := chain_of_key_le (sort_heap xs) (by
    intro j hj
    exact sort_heap_key_le xs h j (by omega))
  exact List.chain'_iff_pairwise.mp hc

theorem key_append_left (xs : List ReportedSpan) (s : ReportedSpan) (c : Nat)
    (h : c < xs.length) : key (xs ++ [s]) c = key xs c := by
  unfold key
  rw [List.getElem?_append_left h]

theorem push_heap_length (xs : List ReportedSpan) : (push_heap xs).length = xs.length :=
  (push_heap_perm xs).length_eq

theorem make_heap_length (xs : List ReportedSpan) : (make_heap xs).length = xs.length :=
  (make_heap_perm xs).length_eq

theorem sort_heap_length (xs : List ReportedSpan) : (sort_heap xs).length = xs.length :=
  (sort_heap_perm xs).length_eq

/-! ## The queue invariant and the effect of one `push` -/

namespace FixedQueue

theorem valid_new (K : Nat) : Valid (new K) := by
  constructor
  · intro c _ h
    simp [new] at h
  · simp [new]

/-- Effect of `push` below capacity. -/
theorem push_below (q : FixedQueue) (s : ReportedSpan) (hv : Valid q)
    (h : q.m_items.length < q.m_capacity) :
    ∃ q', q.push s = some q' ∧ q'.m_capacity = q.m_capacity ∧ Valid q' ∧
      q'.m_items.Perm (q.m_items ++ [s]) := by
  refine ⟨{ q with m_items := push_heap (q.m_items ++ [s]) }, ?_, rfl, ⟨?_, ?_⟩, ?_⟩
  · simp [push, h]
  · have hh : IsHeap (q.m_items ++ [s]) ((q.m_items ++ [s]).length - 1) := by
      intro c h1 h2
      have hc : c < q.m_items.length := by simpa using h2
      rw [key_append_left _ _ _ hc, key_append_left _ _ _ (by omega)]
      exact hv.1 c h1 hc
    have := push_heap_isHeap _ hh
    simpa [push_heap_length] using this
  · simp only [push_heap_length, List.length_append, List.length_singleton]
    omega
  · exact push_heap_perm _

/-- Effect of `push` at capacity: the sorted vector starts with a span `front`
of least duration; it is replaced by the incoming span exactly when its
duration is strictly smaller. -/
theorem push_full (q : FixedQueue) (s : ReportedSpan) (hv : Valid q)
    (h : ¬ q.m_items.length < q.m_capacity) (hne : q.m_items ≠ []) :
    ∃ front tail, (front :: tail).Perm q.m_items ∧
      (∀ x ∈ q.m_items, front.duration ≤ x.duration) ∧
      ∃ q', q.push s = some q' ∧ q'.m_capacity = q.m_capacity ∧ Valid q' ∧
        (front.duration < s.duration → q'.m_items.Perm (s :: tail)) ∧
        (s.duration ≤ front.duration → q'.m_items.Perm q.m_items) := by
  have hperm := sort_heap_perm q.m_items
  have hsorted := sort_heap_sorted q.m_items hv.1
  cases hs : sort_heap q.m_items with
  | nil =>
    rw [hs] at hperm
    exact absurd hperm.symm.eq_nil hne
  | cons front tail =>
    rw [hs] at hperm hsorted
    have hmin : ∀ x ∈ q.m_items, front.duration ≤ x.duration := by
      intro x hx
      have hx' : x ∈ front :: tail := hperm.symm.subset hx
      rcases List.mem_cons.mp hx' with rfl | ht
      · exact Nat.le_refl _
      · simp only [List.map_cons, List.sorted_cons] at hsorted
        exact hsorted.1 _ (List.mem_map_of_mem _ ht)
    have hlen : (front :: tail).length = q.m_items.length := hperm.length_eq
    refine ⟨front, tail, hperm, hmin,
      { q with m_items := make_heap (if front.lt s then (front :: tail).set 0 s
          else front :: tail) }, ?_, rfl, ⟨?_, ?_⟩, ?_, ?_⟩
    · simp [push, h, hs]
    · have := make_heap_isHeap (if front.lt s then (front :: tail).set 0 s else front :: tail)
      simpa [make_heap_length] using this
    · simp only [make_heap_length]
      have hv2 := hv.2
      split_ifs
      · simp only [List.length_set]; omega
      · omega
    · intro hlt
      have hb : front.lt s = true := by simpa [ReportedSpan.lt] using hlt
      simp only [hb, if_true, List.set_cons_zero]
      exact make_heap_perm _
    · intro hle
      have hb : ¬ front.lt s = true := by simp [ReportedSpan.lt]; omega
      simp only [hb, if_false]
      exact (make_heap_perm _).trans hperm

end FixedQueue

/-! ## The largest durations of a sequence -/

/-- If `ds` splits into a part `A` and a rest `R` with no member of `R` above
a member of `A`, then `A` consists of the `A.length` largest members of `ds`. -/
theorem perm_largest_of_split (A R ds : List Nat) (h : (A ++ R).Perm ds)
    (hle : ∀ a ∈ A, ∀ r ∈ R, r ≤ a) : A.Perm (largest A.length ds) := by
  have hA := List.perm_insertionSort (· ≥ ·) A
  have hR := List.perm_insertionSort (· ≥ ·) R
  have hs : List.Sorted (· ≥ ·) (A.insertionSort (· ≥ ·) ++ R.insertionSort (· ≥ ·)) := by
    unfold List.Sorted
    rw [List.pairwise_append]
    refine ⟨List.sorted_insertionSort (· ≥ ·) A, List.sorted_insertionSort (· ≥ ·) R, ?_⟩
    intro a ha r hr
    exact hle a (hA.subset ha) r (hR.subset hr)
  have hp : (A.insertionSort (· ≥ ·) ++ R.insertionSort (· ≥ ·)).Perm
      (ds.insertionSort (· ≥ ·)) :=
    ((hA.append hR).trans h).trans (List.perm_insertionSort (· ≥ ·) ds).symm
  have heq := List.eq_of_perm_of_sorted hp hs (List.sorted_insertionSort (· ≥ ·) ds)
  unfold largest
  rw [← heq, ← hA.length_eq, List.take_left]
  exact hA.symm

namespace FixedQueue

theorem tracks_new (K : Nat) : Tracks K (new K) [] := by
  refine ⟨rfl, valid_new K, by simp [new], [], ?_, ?_⟩
  · simp [durations, new]
  · intro a _ r hr
    simp at hr

theorem tracks_push (K : Nat) (hK : 1 ≤ K) (q : FixedQueue) (hist : List Nat)
    (s : ReportedSpan) (h : Tracks K q hist) :
    ∃ q', q.push s = some q' ∧ Tracks K q' (hist ++ [s.duration]) := by
  obtain ⟨hcap, hv, hlen, R, hperm, hle⟩ := h
  have hRlen : q.m_items.length + R.length = hist.length := by
    have := hperm.length_eq
    simpa [durations] using this
  by_cases hb : q.m_items.length < q.m_capacity
  · obtain ⟨q', hpush, hcap', hv', hp'⟩ := push_below q s hv hb
    have hR : R = [] := by
      apply List.eq_nil_of_length_eq_zero
      omega
    subst hR
    refine ⟨q', hpush, hcap'.trans hcap, hv', ?_, [], ?_, ?_⟩
    · rw [hp'.length_eq]
      simp only [List.length_append, List.length_singleton]
      omega
    · have h1 : q'.durations.Perm (q.durations ++ [s.duration]) := by
        have := hp'.map (·.duration)
        simpa [durations] using this
      simp only [List.append_nil] at hperm ⊢
      exact h1.trans (hperm.append_right _)
    · intro a _ r hr
      simp at hr
  · have hne : q.m_items ≠ [] := by
      intro h0
      rw [h0] at hb
      simp at hb
      omega
    obtain ⟨front, tail, hft, hmin, q', hpush, hcap', hv', hgt, hlek⟩ :=
      push_full q s hv hb hne
    have hftd : (front.duration :: tail.map (·.duration)).Perm q.durations := by
      have := hft.map (·.duration)
      simpa [durations] using this
    have hfront : front.duration ∈ q.durations :=
      hftd.subset (List.mem_cons_self _ _)
    have hmind : ∀ a ∈ q.durations, front.duration ≤ a := by
      intro a ha
      obtain ⟨x, hx, rfl⟩ := List.mem_map.mp ha
      exact hmin x hx
    by_cases hlt : front.duration < s.duration
    · have hq' := hgt hlt
      have hd' : q'.durations.Perm (s.duration :: tail.map (·.duration)) := by
        have := hq'.map (·.duration)
        simpa [durations] using this
      refine ⟨q', hpush, hcap'.trans hcap, hv', ?_, front.duration :: R, ?_, ?_⟩
      · rw [hq'.length_eq]
        have := hft.length_eq
        simp only [List.length_cons, List.length_append, List.length_singleton] at this ⊢
        omega
      · have step1 : (q'.durations ++ front.duration :: R).Perm
            ((s.duration :: tail.map (·.duration)) ++ front.duration :: R) :=
          hd'.append_right _
        have step2 : ((s.duration :: tail.map (·.duration)) ++ front.duration :: R).Perm
            (s.duration :: ((front.duration :: tail.map (·.duration)) ++ R)) := by
          simp only [List.cons_append]
          exact List.Perm.cons _ List.perm_middle
        have step3 : (s.duration :: ((front.duration :: tail.map (·.duration)) ++ R)).Perm
            (s.duration :: hist) :=
          List.Perm.cons _ ((hftd.append_right R).trans hperm)
        have step4 : (s.duration :: hist).Perm (hist ++ [s.duration]) :=
          (List.perm_append_singleton _ _).symm
        exact ((step1.trans step2).trans step3).trans step4
      · intro a ha r hr
        have ha' : a = s.duration ∨ a ∈ tail.map (·.duration) := by
          have := hd'.subset ha
          simpa using this
        have hta : a ∈ tail.map (·.duration) → front.duration ≤ a ∧ a ∈ q.durations := by
          intro hmem
          have : a ∈ q.durations := hftd.subset (List.mem_cons_of_mem _ hmem)
          exact ⟨hmind a this, this⟩
        rcases List.mem_cons.mp hr with rfl | hrR
        · rcases ha' with rfl | hmem
          · omega
          · exact (hta hmem).1
        · rcases ha' with rfl | hmem
          · have := hle _ hfront r hrR
            omega
          · exact hle a (hta hmem).2 r hrR
    · have hq' := hlek (by omega)
      have hd' : q'.durations.Perm q.durations := by
        have := hq'.map (·.duration)
        simpa [durations] using this
      refine ⟨q', hpush, hcap'.trans hcap, hv', ?_, s.duration :: R, ?_, ?_⟩
      · rw [hq'.length_eq]
        simp only [List.length_append, List.length_singleton]
        omega
      · have step1 : (q'.durations ++ s.duration :: R).Perm (q.durations ++ s.duration :: R) :=
          hd'.append_right _
        have step2 : (q.durations ++ s.duration :: R).Perm (s.duration :: (q.durations ++ R)) :=
          List.perm_middle
        have step3 : (s.duration :: (q.durations ++ R)).Perm (s.duration :: hist) :=
          List.Perm.cons _ hperm
        have step4 : (s.duration :: hist).Perm (hist ++ [s.duration]) :=
          (List.perm_append_singleton _ _).symm
        exact ((step1.trans step2).trans step3).trans step4
      · intro a ha r hr
        have ha' : a ∈ q.durations := hd'.subset ha
        rcases List.mem_cons.mp hr with rfl | hrR
        · have := hmind a ha'
          omega
        · exact hle a ha' r hrR

theorem tracks_pushAll (K : Nat) (hK : 1 ≤ K) : ∀ (spans : List ReportedSpan)
    (q : FixedQueue) (hist : List Nat), Tracks K q hist →
    ∃ q', pushAll q spans = some q' ∧ Tracks K q' (hist ++ spans.map (·.duration))
  | [], q, hist, h => ⟨q, rfl, by simpa using h⟩
  | s :: ss, q, hist, h => by
    obtain ⟨q1, h1, t1⟩ := tracks_push K hK q hist s h
    obtain ⟨q2, h2, t2⟩ := tracks_pushAll K hK ss q1 _ t1
    refine ⟨q2, ?_, ?_⟩
    · simp only [pushAll, h1]
      exact h2
    · simpa using t2

theorem tracks_largest (K : Nat) (q : FixedQueue) (hist : List Nat) (h : Tracks K q hist) :
    q.durations.Perm (largest (min K hist.length) hist) := by
  obtain ⟨_, _, hlen, R, hperm, hle⟩ := h
  have := perm_largest_of_split q.durations R hist hperm hle
  have hl : q.durations.length = min K hist.length := by
    simpa [durations] using hlen
  rwa [hl] at this

end FixedQueue

namespace FixedQueue

/-! ## Facts about `push` that hold in every state -/

/-- With a positive capacity, `push` never reads the front of an empty vector. -/
theorem push_isSome (q : FixedQueue) (s : ReportedSpan) (hK : 1 ≤ q.m_capacity) :
    ∃ q', q.push s = some q' := by
  unfold push
  split_ifs with h
  · exact ⟨_, rfl⟩
  · cases hs : sort_heap q.m_items with
    | nil =>
      have := sort_heap_length q.m_items
      rw [hs] at this
      simp at this
      omega
    | cons front tail => exact ⟨_, rfl⟩

/-- The capacity is never changed by `push`, and the size grows by one below
capacity and stays the same otherwise. -/
theorem push_size (q q' : FixedQueue) (s : ReportedSpan) (h : q.push s = some q') :
    q'.m_capacity = q.m_capacity ∧
      q'.size = if q.size < q.m_capacity then q.size + 1 else q.size := by
  unfold push at h
  unfold size
  split_ifs at h with hb
  · simp only [Option.some.injEq] at h
    subst h
    simp [push_heap_length, hb]
  · cases hs : sort_heap q.m_items with
    | nil => simp [hs] at h
    | cons front tail =>
      have hl := sort_heap_length q.m_items
      rw [hs] at hl
      simp only [hs, List.head?_cons, Option.some.injEq] at h
      subst h
      simp only [make_heap_length, if_neg hb]
      refine ⟨trivial, ?_⟩
      split_ifs
      · rw [List.length_set]; exact hl
      · exact hl

/-- The invariant is kept by `push`. -/
theorem valid_push (q q' : FixedQueue) (s : ReportedSpan) (hv : Valid q)
    (h : q.push s = some q') : Valid q' := by
  by_cases hb : q.m_items.length < q.m_capacity
  · obtain ⟨q1, h1, _, hv1, _⟩ := push_below q s hv hb
    rw [h1] at h
    exact Option.some.inj h ▸ hv1
  · have hne : q.m_items ≠ [] := by
      intro h0
      have hb0 : ¬ 0 < q.m_capacity := by simpa [h0] using hb
      simp [push, h0, hb0, sort_heap, sortLoop] at h
    obtain ⟨_, _, _, _, q1, h1, _, hv1, _⟩ := push_full q s hv hb hne
    rw [h1] at h
    exact Option.some.inj h ▸ hv1

theorem valid_pushAll : ∀ (spans : List ReportedSpan) (q q' : FixedQueue),
    Valid q → pushAll q spans = some q' → Valid q' ∧ q'.m_capacity = q.m_capacity
  | [], q, q', hv, h => by
    simp only [pushAll, Option.some.injEq] at h
    subst h
    exact ⟨hv, rfl⟩
  | s :: ss, q, q', hv, h => by
    simp only [pushAll] at h
    cases h1 : q.push s with
    | none => simp [h1] at h
    | some q1 =>
      simp only [h1] at h
      have := valid_pushAll ss q1 q' (valid_push q q1 s hv h1) h
      exact ⟨this.1, this.2.trans (push_size q q1 s h1).1⟩

end FixedQueue

/-! # Properties of `FixedQueue<ReportedSpan>` -/

/-- C1: for every capacity `K ≥ 1` and every sequence of spans pushed in order
onto an empty queue of capacity `K`, all pushes succeed and the multiset of
durations held afterwards is the multiset of the `min K n` largest durations
of the pushed sequence. -/
theorem C1_push_retains_largest (K : Nat) (hK : 1 ≤ K) (spans : List ReportedSpan) :
    ∃ q, FixedQueue.pushAll (FixedQueue.new K) spans = some q ∧
      Multiset.ofList q.durations =
        Multiset.ofList (largest (min K spans.length) (spans.map (·.duration))) := by
  obtain ⟨q, hq, ht⟩ :=
    FixedQueue.tracks_pushAll K hK spans (FixedQueue.new K) [] (FixedQueue.tracks_new K)
  refine ⟨q, hq, ?_⟩
  have hp := FixedQueue.tracks_largest K q _ ht
  simp only [List.nil_append, List.length_map] at hp
  exact Quotient.sound hp

/-- C1 at capacity 2 and durations 5, 3, 9, 1, 7: the queue ends up holding
the durations 9 and 7, the two largest. -/
theorem C1_push_retains_largest_witness :
    (1 ≤ 2) ∧
    (∃ q, FixedQueue.pushAll (FixedQueue.new 2)
        [⟨5, ""⟩, ⟨3, ""⟩, ⟨9, ""⟩, ⟨1, ""⟩, ⟨7, ""⟩] = some q ∧
      Multiset.ofList q.durations =
        Multiset.ofList (largest (min 2
          ([⟨5, ""⟩, ⟨3, ""⟩, ⟨9, ""⟩, ⟨1, ""⟩, ⟨7, ""⟩] : List ReportedSpan).length)
          (([⟨5, ""⟩, ⟨3, ""⟩, ⟨9, ""⟩, ⟨1, ""⟩, ⟨7, ""⟩] : List ReportedSpan).map
            (·.duration)))) ∧
    (FixedQueue.pushAll (FixedQueue.new 2)
        [⟨5, ""⟩, ⟨3, ""⟩, ⟨9, ""⟩, ⟨1, ""⟩, ⟨7, ""⟩]).map FixedQueue.durations = some [9, 7] ∧
    largest 2 [5, 3, 9, 1, 7] = [9, 7] :=
  ⟨by decide, C1_push_retains_largest 2 (by decide) _, by decide, by decide⟩

/-- C2, as stated, fails: after pushing durations 5, 3, 9, 1, 7 into a queue
of capacity 2, `get_sorted` returns the durations in the order 7, 9, which is
not descending. -/
theorem C2_get_sorted_not_descending :
    (FixedQueue.pushAll (FixedQueue.new 2)
        [⟨5, ""⟩, ⟨3, ""⟩, ⟨9, ""⟩, ⟨1, ""⟩, ⟨7, ""⟩]).map
      (fun q => q.get_sorted.durations) = some [7, 9] ∧
    ¬ List.Sorted (· ≥ ·) [7, 9] := by
  constructor
  · decide
  · decide

/-- C2, amended: for every queue reached by pushes from an empty queue,
`get_sorted` returns the retained spans in ascending order of duration (each
duration is at most the next one). -/
theorem C2_get_sorted_ascending (K : Nat) (spans : List ReportedSpan) (q : FixedQueue)
    (h : FixedQueue.pushAll (FixedQueue.new K) spans = some q) :
    List.Sorted (· ≤ ·) q.get_sorted.durations := by
  have hv := (FixedQueue.valid_pushAll spans _ q (FixedQueue.valid_new K) h).1
  exact sort_heap_sorted q.m_items hv.1

/-- C2 amended, at capacity 2 and durations 5, 3, 9, 1, 7. -/
theorem C2_get_sorted_ascending_witness :
    FixedQueue.pushAll (FixedQueue.new 2)
        [⟨5, ""⟩, ⟨3, ""⟩, ⟨9, ""⟩, ⟨1, ""⟩, ⟨7, ""⟩] = some ⟨2, [⟨9, ""⟩, ⟨7, ""⟩]⟩ ∧
    List.Sorted (· ≤ ·) (FixedQueue.get_sorted ⟨2, [⟨9, ""⟩, ⟨7, ""⟩]⟩).durations ∧
    (FixedQueue.get_sorted ⟨2, [⟨9, ""⟩, ⟨7, ""⟩]⟩).durations = [7, 9] :=
  ⟨by decide,
   C2_get_sorted_ascending 2 [⟨5, ""⟩, ⟨3, ""⟩, ⟨9, ""⟩, ⟨1, ""⟩, ⟨7, ""⟩] _ (by decide),
   by decide⟩

/-- C3: for a queue at capacity (`size = K ≥ 1`, reached by pushes from an
empty queue), an incoming span `s` and the least retained duration `m`:
`push` succeeds; if `s.duration ≤ m` the multiset of retained spans is
unchanged; if `m < s.duration` exactly one span of duration `m` is removed and
`s` is added, so the multiset of durations becomes old − {m} + {s.duration}. -/
theorem C3_push_at_capacity (K : Nat) (hK : 1 ≤ K) (spans : List ReportedSpan)
    (q : FixedQueue) (hq : FixedQueue.pushAll (FixedQueue.new K) spans = some q)
    (hfull : q.size = K) (s : ReportedSpan) (m : Nat)
    (hm : m ∈ q.durations) (hmin : ∀ d ∈ q.durations, m ≤ d) :
    ∃ q', q.push s = some q' ∧
      (s.duration ≤ m → Multiset.ofList q'.m_items = Multiset.ofList q.m_items) ∧
      (m < s.duration → ∃ x ∈ q.m_items, x.duration = m ∧
        Multiset.ofList q'.m_items = s ::ₘ (Multiset.ofList q.m_items).erase x ∧
        Multiset.ofList q'.durations =
          s.duration ::ₘ (Multiset.ofList q.durations).erase m) := by
  obtain ⟨hv, hcap⟩ := FixedQueue.valid_pushAll spans _ q (FixedQueue.valid_new K) hq
  have hcapK : q.m_capacity = K := hcap
  have hlen : q.m_items.length = K := hfull
  have hb : ¬ q.m_items.length < q.m_capacity := by omega
  have hne : q.m_items ≠ [] := by
    intro h0
    rw [h0] at hlen
    simp at hlen
    omega
  obtain ⟨front, tail, hft, hfmin, q', hpush, _, _, hgt, hle⟩ :=
    FixedQueue.push_full q s hv hb hne
  have hfront : front ∈ q.m_items := hft.subset (List.mem_cons_self _ _)
  have hfm : front.duration = m := by
    have h1 := hmin front.duration (List.mem_map_of_mem _ hfront)
    obtain ⟨x, hx, hxm⟩ := List.mem_map.mp hm
    have h2 := hfmin x hx
    omega
  refine ⟨q', hpush, ?_, ?_⟩
  · intro hsm
    exact Quotient.sound (hle (by omega))
  · intro hms
    have hp' := hgt (by omega)
    have htail : tail.Perm (q.m_items.erase front) :=
      (hft.trans (List.perm_cons_erase hfront)).cons_inv
    have hitems : q'.m_items.Perm (s :: q.m_items.erase front) :=
      hp'.trans (List.Perm.cons _ htail)
    refine ⟨front, hfront, hfm, ?_, ?_⟩
    · show Multiset.ofList q'.m_items = Multiset.ofList (s :: q.m_items.erase front)
      exact Quotient.sound hitems
    · have hdm : m ∈ q.durations := hm
      have htd : (tail.map (·.duration)).Perm (q.durations.erase m) := by
        have h1 : (m :: tail.map (·.duration)).Perm q.durations := by
          have := hft.map (·.duration)
          simpa [FixedQueue.durations, hfm] using this
        exact (h1.trans (List.perm_cons_erase hdm)).cons_inv
      have hd' : q'.durations.Perm (s.duration :: q.durations.erase m) := by
        have := hp'.map (·.duration)
        simp only [List.map_cons] at this
        exact this.trans (List.Perm.cons _ htd)
      show Multiset.ofList q'.durations = Multiset.ofList (s.duration :: q.durations.erase m)
      exact Quotient.sound hd'

/-- C3 at capacity 2: the queue reached by durations 5, 3, 9, 1, 7 holds 9 and
7; a span of duration 8 replaces the span of duration 7, and a span of
duration 7 with another payload is discarded. -/
theorem C3_push_at_capacity_witness :
    (∃ q', FixedQueue.push ⟨2, [⟨9, ""⟩, ⟨7, ""⟩]⟩ ⟨8, "x"⟩ = some q' ∧
      ((8 : Nat) ≤ 7 → Multiset.ofList q'.m_items =
        Multiset.ofList ([⟨9, ""⟩, ⟨7, ""⟩] : List ReportedSpan)) ∧
      (7 < 8 → ∃ x ∈ ([⟨9, ""⟩, ⟨7, ""⟩] : List ReportedSpan), x.duration = 7 ∧
        Multiset.ofList q'.m_items =
          (⟨8, "x"⟩ : ReportedSpan) ::ₘ
            (Multiset.ofList ([⟨9, ""⟩, ⟨7, ""⟩] : List ReportedSpan)).erase x ∧
        Multiset.ofList q'.durations =
          8 ::ₘ (Multiset.ofList
            (FixedQueue.durations ⟨2, [⟨9, ""⟩, ⟨7, ""⟩]⟩)).erase 7)) ∧
    FixedQueue.push ⟨2, [⟨9, ""⟩, ⟨7, ""⟩]⟩ ⟨8, "x"⟩ = some ⟨2, [⟨9, ""⟩, ⟨8, "x"⟩]⟩ ∧
    FixedQueue.push ⟨2, [⟨9, ""⟩, ⟨7, ""⟩]⟩ ⟨7, "y"⟩ = some ⟨2, [⟨9, ""⟩, ⟨7, ""⟩]⟩ :=
  ⟨C3_push_at_capacity 2 (by decide)
      [⟨5, ""⟩, ⟨3, ""⟩, ⟨9, ""⟩, ⟨1, ""⟩, ⟨7, ""⟩] ⟨2, [⟨9, ""⟩, ⟨7, ""⟩]⟩
      (by decide) (by decide) ⟨8, "x"⟩ 7 (by decide) (by decide),
   by decide, by decide⟩

/-- C4: `clear` yields a queue of size 0 that is empty and has the same
capacity, equal to a freshly constructed queue of that capacity; so the
result of pushes made after a flush (`get_sorted` then `clear`) is the result
of the same pushes on a fresh queue, whatever the queue held before. -/
theorem C4_clear_is_fresh (q : FixedQueue) :
    q.clear = FixedQueue.new q.m_capacity ∧
    q.clear.size = 0 ∧ q.clear.empty = true ∧ q.clear.m_capacity = q.m_capacity ∧
    (∀ spans, FixedQueue.pushAll q.clear spans =
      FixedQueue.pushAll (FixedQueue.new q.m_capacity) spans) ∧
    (∀ spans, FixedQueue.pushAll q.get_sorted.clear spans =
      FixedQueue.pushAll (FixedQueue.new q.m_capacity) spans) :=
  ⟨rfl, rfl, rfl, rfl, fun _ => rfl, fun _ => rfl⟩

namespace FixedQueue

/-- With a positive capacity every sequence of operations runs to the end,
and the size never exceeds the capacity, which never changes. -/
theorem run_bounded : ∀ (ops : List Op) (q : FixedQueue),
    1 ≤ q.m_capacity → q.size ≤ q.m_capacity →
    ∃ q', run q ops = some q' ∧ q'.size ≤ q.m_capacity ∧ q'.m_capacity = q.m_capacity
  | [], q, _, hs => ⟨q, rfl, hs, rfl⟩
  | op :: ops, q, hK, hs => by
    have next : ∀ q1, q.step op = some q1 → q1.m_capacity = q.m_capacity →
        q1.size ≤ q.m_capacity →
        ∃ q', run q (op :: ops) = some q' ∧ q'.size ≤ q.m_capacity ∧
          q'.m_capacity = q.m_capacity := by
      intro q1 h1 hc hs1
      obtain ⟨q', hr, hb, hc'⟩ := run_bounded ops q1 (by omega) (by omega)
      refine ⟨q', ?_, by omega, by omega⟩
      simp only [run, h1]
      exact hr
    cases op with
    | push item =>
      obtain ⟨q1, h1⟩ := push_isSome q item hK
      obtain ⟨hc, hsz⟩ := push_size q q1 item h1
      apply next q1 h1 hc
      split_ifs at hsz <;> omega
    | get_sorted =>
      apply next q.get_sorted rfl rfl
      simpa [get_sorted, size, sort_heap_length] using hs
    | clear =>
      apply next q.clear rfl rfl
      simp [clear, size]

/-- With capacity zero the vector stays empty. -/
theorem run_capacity_zero : ∀ (ops : List Op) (q q' : FixedQueue),
    q.m_capacity = 0 → q.m_items = [] → run q ops = some q' →
    q'.m_capacity = 0 ∧ q'.m_items = []
  | [], q, q', hc, hi, h => by
    simp only [run, Option.some.injEq] at h
    subst h
    exact ⟨hc, hi⟩
  | op :: ops, q, q', hc, hi, h => by
    simp only [run] at h
    cases h1 : q.step op with
    | none => simp [h1] at h
    | some q1 =>
      simp only [h1] at h
      apply run_capacity_zero ops q1 q' ?_ ?_ h
      · cases op with
        | push item => exact (push_size q q1 item h1).1.trans hc
        | get_sorted =>
          simp only [step, Option.some.injEq] at h1
          subst h1
          exact hc
        | clear =>
          simp only [step, Option.some.injEq] at h1
          subst h1
          exact hc
      · cases op with
        | push item =>
          simp [step, push, hc, hi, sort_heap, sortLoop] at h1
        | get_sorted =>
          simp only [step, Option.some.injEq] at h1
          subst h1
          simp [get_sorted, hi, sort_heap, sortLoop]
        | clear =>
          simp only [step, Option.some.injEq] at h1
          subst h1
          rfl

end FixedQueue

/-- C5: for every capacity `K ≥ 1`, every sequence of `push`, `get_sorted` and
`clear` operations on the empty queue of capacity `K` runs to a state with
`size ≤ K` and capacity `K`, and a further `push` changes the size to
`min (size + 1) K` and leaves the capacity unchanged. -/
theorem C5_size_bounded (K : Nat) (hK : 1 ≤ K) (ops : List FixedQueue.Op) :
    ∃ q, FixedQueue.run (FixedQueue.new K) ops = some q ∧
      q.size ≤ K ∧ q.m_capacity = K ∧
      ∀ item, ∃ q', q.push item = some q' ∧
        q'.size = min (q.size + 1) K ∧ q'.m_capacity = q.m_capacity := by
  obtain ⟨q, hr, hs, hc⟩ := FixedQueue.run_bounded ops (FixedQueue.new K) hK (Nat.zero_le _)
  have hcK : q.m_capacity = K := hc
  have hsK : q.size ≤ K := hs
  refine ⟨q, hr, hsK, hcK, ?_⟩
  intro item
  obtain ⟨q', hp⟩ := FixedQueue.push_isSome q item (by omega)
  obtain ⟨hc', hsz⟩ := FixedQueue.push_size q q' item hp
  refine ⟨q', hp, ?_, hc'⟩
  split_ifs at hsz <;> omega

/-- C5 at capacity 2, for two pushes, a `get_sorted`, two more pushes, a
`clear` and a last push. -/
theorem C5_size_bounded_witness :
    (∃ q, FixedQueue.run (FixedQueue.new 2)
        [FixedQueue.Op.push ⟨5, ""⟩, FixedQueue.Op.push ⟨3, ""⟩, FixedQueue.Op.get_sorted,
         FixedQueue.Op.push ⟨9, ""⟩, FixedQueue.Op.push ⟨1, ""⟩, FixedQueue.Op.clear,
         FixedQueue.Op.push ⟨7, ""⟩] = some q ∧
      q.size ≤ 2 ∧ q.m_capacity = 2 ∧
      ∀ item, ∃ q', q.push item = some q' ∧
        q'.size = min (q.size + 1) 2 ∧ q'.m_capacity = q.m_capacity) ∧
    FixedQueue.run (FixedQueue.new 2)
        [FixedQueue.Op.push ⟨5, ""⟩, FixedQueue.Op.push ⟨3, ""⟩, FixedQueue.Op.get_sorted,
         FixedQueue.Op.push ⟨9, ""⟩, FixedQueue.Op.push ⟨1, ""⟩, FixedQueue.Op.clear,
         FixedQueue.Op.push ⟨7, ""⟩] = some ⟨2, [⟨7, ""⟩]⟩ :=
  ⟨C5_size_bounded 2 (by decide) _, by decide⟩

/-- C6: `ReportedSpan::operator<` compares the durations alone; it is a strict
weak order (irreflexive, transitive, with transitive incomparability), and
spans of equal duration are not ordered either way, whatever their payloads. -/
theorem C6_operator_lt_by_duration :
    (∀ a b : ReportedSpan, a.lt b = true ↔ a.duration < b.duration) ∧
    (∀ (d₁ d₂ : Nat) (p₁ p₂ : String),
      ReportedSpan.lt ⟨d₁, p₁⟩ ⟨d₂, p₂⟩ = decide (d₁ < d₂)) ∧
    (∀ a : ReportedSpan, a.lt a = false) ∧
    (∀ a b c : ReportedSpan, a.lt b = true → b.lt c = true → a.lt c = true) ∧
    (∀ a b c : ReportedSpan, a.lt b = false → b.lt a = false →
      b.lt c = false → c.lt b = false → a.lt c = false ∧ c.lt a = false) ∧
    (∀ a b : ReportedSpan, a.duration = b.duration → a.lt b = false ∧ b.lt a = false) := by
  refine ⟨?_, ?_, ?_, ?_, ?_, ?_⟩
  · intro a b
    simp [ReportedSpan.lt]
  · intro d₁ d₂ p₁ p₂
    rfl
  · intro a
    simp [ReportedSpan.lt]
  · intro a b c
    simp only [ReportedSpan.lt, decide_eq_true_eq]
    omega
  · intro a b c
    simp only [ReportedSpan.lt, decide_eq_false_iff_not]
    omega
  · intro a b
    simp only [ReportedSpan.lt, decide_eq_false_iff_not]
    omega

/-- C6 on concrete spans: equal durations with different payloads are
unordered, and the order follows the durations. -/
theorem C6_operator_lt_by_duration_witness :
    ReportedSpan.lt ⟨7, "a"⟩ ⟨7, "b"⟩ = false ∧ ReportedSpan.lt ⟨7, "b"⟩ ⟨7, "a"⟩ = false ∧
    ReportedSpan.lt ⟨3, "z"⟩ ⟨7, "a"⟩ = true ∧
    (ReportedSpan.lt ⟨3, "z"⟩ ⟨7, "a"⟩ = true ↔ (3 : Nat) < 7) :=
  ⟨by decide, by decide, by decide, C6_operator_lt_by_duration.1 ⟨3, "z"⟩ ⟨7, "a"⟩⟩

end trace

/-! # Properties of `lcb_st` -/

/-- C7: when `destroying` is non-zero, `lcb_st::bootstrap` returns
`LCB_ERR_REQUEST_CANCELED`, leaves the instance unchanged (in particular
`bs_state`, so no Bootstrap object is created when it is null) and makes no
call on the bootstrap object, whatever the options. -/
theorem C7_bootstrap_canceled_when_destroying {Status Vbc Bootstrap Others : Type}
    (api : BootstrapApi Status Vbc Bootstrap Others)
    (self : lcb_st Vbc Bootstrap Others) (options : Nat)
    (h : self.destroying ≠ 0) :
    self.bootstrap api options = (api.LCB_ERR_REQUEST_CANCELED, self, []) ∧
    (self.bootstrap api options).2.1.bs_state = self.bs_state ∧
    BootstrapCall.construct ∉ (self.bootstrap api options).2.2 ∧
    BootstrapCall.bootstrap options ∉ (self.bootstrap api options).2.2 := by
  have e : self.bootstrap api options = (api.LCB_ERR_REQUEST_CANCELED, self, []) := by
    unfold lcb_st.bootstrap
    rw [if_pos h]
  rw [e]
  exact ⟨rfl, rfl, List.not_mem_nil _, List.not_mem_nil _⟩

/-- C7 on an instance with `destroying = 1` and a null `bs_state`, for a
`Bootstrap::bootstrap` that would return status 0 and set `destroying` to 5:
status 202 is returned, nothing is created or called, nothing changes. -/
theorem C7_bootstrap_canceled_when_destroying_witness :
    lcb_st.bootstrap
        (⟨202, fun i => ((), i), fun _ _ i => (0, { i with destroying := 5 })⟩ :
          BootstrapApi Nat Unit Unit Unit)
        ⟨none, none, 1, ()⟩ 7 = ((202 : Nat), ⟨none, none, 1, ()⟩, []) ∧
    lcb_st.bootstrap
        (⟨202, fun i => ((), i), fun _ _ i => (0, { i with destroying := 5 })⟩ :
          BootstrapApi Nat Unit Unit Unit)
        ⟨none, none, 0, ()⟩ 7 =
      ((0 : Nat), ⟨none, some (), 5, ()⟩,
        [BootstrapCall.construct, BootstrapCall.bootstrap 7]) :=
  ⟨(C7_bootstrap_canceled_when_destroying
      (⟨202, fun i => ((), i), fun _ _ i => (0, { i with destroying := 5 })⟩ :
        BootstrapApi Nat Unit Unit Unit)
      ⟨none, none, 1, ()⟩ 7 (by decide)).1,
   rfl⟩

namespace trace

/-! # Further properties of `FixedQueue<ReportedSpan>` -/

/-- C9: the vector returned by `get_sorted` is a permutation of the retained
spans (same multiset of duration and payload pairs), and `get_sorted` changes
neither the size nor the capacity.  This holds in every state of the queue, in
particular in those reached by pushes from an empty queue. -/
theorem C9_get_sorted_permutation (q : FixedQueue) :
    Multiset.ofList q.get_sorted.m_items = Multiset.ofList q.m_items ∧
    q.get_sorted.size = q.size ∧ q.get_sorted.m_capacity = q.m_capacity :=
  ⟨Quotient.sound (sort_heap_perm q.m_items), sort_heap_length q.m_items, rfl⟩

/-- C9 on the queue reached by durations 5, 3, 9, 1, 7 at capacity 2, with
payloads: the two retained spans are returned once each. -/
theorem C9_get_sorted_permutation_witness :
    FixedQueue.pushAll (FixedQueue.new 2)
        [⟨5, "a"⟩, ⟨3, "b"⟩, ⟨9, "c"⟩, ⟨1, "d"⟩, ⟨7, "e"⟩] =
      some ⟨2, [⟨9, "c"⟩, ⟨7, "e"⟩]⟩ ∧
    (FixedQueue.get_sorted ⟨2, [⟨9, "c"⟩, ⟨7, "e"⟩]⟩).m_items = [⟨7, "e"⟩, ⟨9, "c"⟩] ∧
    Multiset.ofList (FixedQueue.get_sorted ⟨2, [⟨9, "c"⟩, ⟨7, "e"⟩]⟩).m_items =
      Multiset.ofList ([⟨9, "c"⟩, ⟨7, "e"⟩] : List ReportedSpan) :=
  ⟨by decide, by decide, (C9_get_sorted_permutation ⟨2, [⟨9, "c"⟩, ⟨7, "e"⟩]⟩).1⟩

/-- C10: the read of `m_items.front()` in `push` is safe exactly when the
capacity is positive.  For `K ≥ 1` every sequence of operations on the empty
queue runs to the end and a further `push` succeeds, so `front()` is never
evaluated on an empty vector.  For `K = 0` every reachable state is empty, is
at capacity, and every `push` on it evaluates `front()` on an empty vector. -/
theorem C10_front_safe_iff_capacity_positive (K : Nat) (ops : List FixedQueue.Op) :
    (1 ≤ K → ∃ q, FixedQueue.run (FixedQueue.new K) ops = some q ∧
      ∀ item, ∃ q', q.push item = some q') ∧
    (K = 0 → ∀ q, FixedQueue.run (FixedQueue.new K) ops = some q →
      q.m_items = [] ∧ ¬ q.m_items.length < q.m_capacity ∧
        ∀ item, q.push item = none) := by
  constructor
  · intro hK
    obtain ⟨q, hr, _, hc⟩ :=
      FixedQueue.run_bounded ops (FixedQueue.new K) hK (Nat.zero_le _)
    have hcK : q.m_capacity = K := hc
    exact ⟨q, hr, fun item => FixedQueue.push_isSome q item (by omega)⟩
  · intro hK q hr
    subst hK
    obtain ⟨hc, hi⟩ := FixedQueue.run_capacity_zero ops (FixedQueue.new 0) q rfl rfl hr
    refine ⟨hi, by simp [hi, hc], ?_⟩
    intro item
    simp [FixedQueue.push, hc, hi, sort_heap, sortLoop]

/-- C10 at capacity 1 (a push, a clear and a push all succeed) and at
capacity 0 (the first push fails). -/
theorem C10_front_safe_iff_capacity_positive_witness :
    (∃ q, FixedQueue.run (FixedQueue.new 1)
        [FixedQueue.Op.push ⟨5, ""⟩, FixedQueue.Op.clear, FixedQueue.Op.push ⟨3, ""⟩] = some q ∧
      ∀ item, ∃ q', q.push item = some q') ∧
    ((FixedQueue.new 0).m_items = [] ∧
      ¬ (FixedQueue.new 0).m_items.length < (FixedQueue.new 0).m_capacity ∧
      ∀ item, (FixedQueue.new 0).push item = none) ∧
    FixedQueue.run (FixedQueue.new 0) [FixedQueue.Op.push ⟨5, ""⟩] = none :=
  ⟨(C10_front_safe_iff_capacity_positive 1
      [FixedQueue.Op.push ⟨5, ""⟩, FixedQueue.Op.clear, FixedQueue.Op.push ⟨3, ""⟩]).1
      (by decide),
   (C10_front_safe_iff_capacity_positive 0 []).2 rfl (FixedQueue.new 0) rfl,
   by decide⟩

/-! ## The heap order across `push`, `clear` and `get_sorted` -/

namespace FixedQueue

/-- From a vector that is a heap, `push` leads to a vector that is a heap. -/
theorem push_isHeap (q q' : FixedQueue) (s : ReportedSpan)
    (hv : IsHeap q.m_items q.m_items.length) (h : q.push s = some q') :
    IsHeap q'.m_items q'.m_items.length := by
  by_cases hb : q.m_items.length < q.m_capacity
  · obtain ⟨q1, h1, _, hv1, _⟩ := push_below q s ⟨hv, Nat.le_of_lt hb⟩ hb
    rw [h1] at h
    exact Option.some.inj h ▸ hv1.1
  · unfold push at h
    rw [if_neg hb] at h
    cases hs : sort_heap q.m_items with
    | nil => simp [hs] at h
    | cons front tail =>
      simp only [hs, List.head?_cons, Option.some.injEq] at h
      subst h
      have := make_heap_isHeap
        (if front.lt s = true then (front :: tail).set 0 s else front :: tail)
      simpa [make_heap_length] using this

/-- Every state reached without `get_sorted` from a heap is a heap. -/
theorem run_isHeap : ∀ (ops : List Op) (q q' : FixedQueue),
    (∀ op ∈ ops, op ≠ Op.get_sorted) → IsHeap q.m_items q.m_items.length →
    run q ops = some q' → IsHeap q'.m_items q'.m_items.length
  | [], q, q', _, hv, h => by
    simp only [run, Option.some.injEq] at h
    subst h
    exact hv
  | op :: ops, q, q', hno, hv, h => by
    simp only [run] at h
    cases h1 : q.step op with
    | none => simp [h1] at h
    | some q1 =>
      simp only [h1] at h
      apply run_isHeap ops q1 q' (fun o ho => hno o (List.mem_cons_of_mem _ ho)) ?_ h
      cases op with
      | push item => exact push_isHeap q q1 item hv h1
      | get_sorted => exact absurd rfl (hno Op.get_sorted (List.mem_cons_self _ _))
      | clear =>
        simp only [step, Option.some.injEq] at h1
        subst h1
        intro c _ hc
        simp [clear] at hc

end FixedQueue

theorem key_eq_getElem (l : List ReportedSpan) (c : Nat) (h : c < l.length) :
    key l c = l[c].duration := by
  unfold key
  rw [List.getElem?_eq_getElem h]

/-- A vector sorted in ascending order of duration that holds two different
durations is not a max-heap. -/
theorem not_isHeap_of_sorted (l : List ReportedSpan)
    (hs : List.Sorted (· ≤ ·) (l.map (·.duration)))
    (hd : ∃ a ∈ l, ∃ b ∈ l, a.duration ≠ b.duration) :
    ¬ IsHeap l l.length := by
  intro hh
  obtain ⟨a, ha, b, hb, hab⟩ := hd
  cases l with
  | nil => simp at ha
  | cons x t =>
    have hroot := hh.le_root
    have hlow : ∀ y ∈ x :: t, x.duration ≤ y.duration := by
      intro y hy
      rcases List.mem_cons.mp hy with rfl | ht
      · exact Nat.le_refl _
      · simp only [List.map_cons, List.sorted_cons] at hs
        exact hs.1 _ (List.mem_map_of_mem _ ht)
    have hup : ∀ y ∈ x :: t, y.duration ≤ x.duration := by
      intro y hy
      obtain ⟨c, hc, rfl⟩ := List.getElem_of_mem hy
      have := hroot c hc
      rwa [key_eq_getElem _ _ hc, key_cons_zero] at this
    have h1 := hlow a ha
    have h2 := hup a ha
    have h3 := hlow b hb
    have h4 := hup b hb
    omega

/-- C11: `push` and `clear` keep the max-heap order of the vector (every state
reached by them from the empty queue is a heap), but `get_sorted` does not:
from a heap holding two spans of different durations it leaves the vector in
ascending order of duration, which is not a max-heap; after `clear` the vector
is a heap again. -/
theorem C11_heap_kept_by_push_clear_not_get_sorted (q : FixedQueue)
    (hv : IsHeap q.m_items q.size) :
    (∀ item q', q.push item = some q' → IsHeap q'.m_items q'.size) ∧
    IsHeap q.clear.m_items q.clear.size ∧
    (∀ K ops q', (∀ op ∈ ops, op ≠ FixedQueue.Op.get_sorted) →
      FixedQueue.run (FixedQueue.new K) ops = some q' → IsHeap q'.m_items q'.size) ∧
    List.Sorted (· ≤ ·) q.get_sorted.durations ∧
    ((∃ a ∈ q.m_items, ∃ b ∈ q.m_items, a.duration ≠ b.duration) →
      ¬ IsHeap q.get_sorted.m_items q.get_sorted.size) ∧
    IsHeap q.get_sorted.clear.m_items q.get_sorted.clear.size := by
  have hempty : ∀ K : Nat, IsHeap ([] : List ReportedSpan) K := by
    intro K c h1 _
    simp [key]
  refine ⟨?_, hempty _, ?_, sort_heap_sorted q.m_items hv, ?_, hempty _⟩
  · intro item q' h
    exact FixedQueue.push_isHeap q q' item hv h
  · intro K ops q' hno hr
    exact FixedQueue.run_isHeap ops (FixedQueue.new K) q' hno (FixedQueue.valid_new K).1 hr
  · intro hd
    have hs := sort_heap_sorted q.m_items hv
    apply not_isHeap_of_sorted (sort_heap q.m_items) hs
    obtain ⟨a, ha, b, hb, hab⟩ := hd
    have hp := sort_heap_perm q.m_items
    exact ⟨a, hp.symm.subset ha, b, hp.symm.subset hb, hab⟩

/-- C11 on the heap holding the durations 9 and 7: `get_sorted` leaves the
vector in the order 7, 9, which is not a max-heap; after `clear` the (empty)
vector is a heap. -/
theorem C11_heap_kept_by_push_clear_not_get_sorted_witness :
    (FixedQueue.get_sorted ⟨2, [⟨9, ""⟩, ⟨7, ""⟩]⟩).m_items = [⟨7, ""⟩, ⟨9, ""⟩] ∧
    ¬ IsHeap (FixedQueue.get_sorted ⟨2, [⟨9, ""⟩, ⟨7, ""⟩]⟩).m_items
        (FixedQueue.get_sorted ⟨2, [⟨9, ""⟩, ⟨7, ""⟩]⟩).size ∧
    IsHeap (FixedQueue.get_sorted ⟨2, [⟨9, ""⟩, ⟨7, ""⟩]⟩).clear.m_items
        (FixedQueue.get_sorted ⟨2, [⟨9, ""⟩, ⟨7, ""⟩]⟩).clear.size :=
  have hv : IsHeap (FixedQueue.mk 2 [⟨9, ""⟩, ⟨7, ""⟩]).m_items
      (FixedQueue.mk 2 [⟨9, ""⟩, ⟨7, ""⟩]).size := by
    intro c h1 h2
    have hc : c = 1 := by
      simp only [FixedQueue.size, List.length_cons, List.length_nil] at h2
      omega
    subst hc
    decide
  ⟨by decide,
   (C11_heap_kept_by_push_clear_not_get_sorted ⟨2, [⟨9, ""⟩, ⟨7, ""⟩]⟩ hv).2.2.2.2.1
     ⟨⟨9, ""⟩, by decide, ⟨7, ""⟩, by decide, by decide⟩,
   (C11_heap_kept_by_push_clear_not_get_sorted ⟨2, [⟨9, ""⟩, ⟨7, ""⟩]⟩ hv).2.2.2.2.2⟩

end trace

/-! # Properties of `Span` -/

namespace trace

/-- C12: `Span::duration()` is `(m_finish - m_start) mod 2 ^ 64`.  For 64-bit
fields it is below `2 ^ 64`; when `m_start ≤ m_finish` it is the exact
difference `m_finish - m_start`; when `m_finish < m_start` it wraps to
`2 ^ 64 - (m_start - m_finish)`, which is at least 1. -/
theorem C12_duration_wraps (s : Span) (hs : s.m_start < 2 ^ 64)
    (hf : s.m_finish < 2 ^ 64) :
    (s.duration : Int) = ((s.m_finish : Int) - (s.m_start : Int)) % 2 ^ 64 ∧
    s.duration < 2 ^ 64 ∧
    (s.m_start ≤ s.m_finish → s.duration = s.m_finish - s.m_start) ∧
    (s.m_finish < s.m_start →
      s.duration = 2 ^ 64 - (s.m_start - s.m_finish) ∧ 1 ≤ s.duration) := by
  unfold Span.duration
  refine ⟨by omega, by omega, ?_, ?_⟩
  · intro h
    omega
  · intro h
    omega

/-- C12 on a span that starts at 10 and finishes at 3 (the duration wraps to
`2 ^ 64 - 7`) and on one that starts at 3 and finishes at 10 (duration 7). -/
theorem C12_duration_wraps_witness :
    ((10 : Nat) < 2 ^ 64 ∧ (3 : Nat) < 2 ^ 64) ∧
    (Span.duration ⟨"get", 1, 10, 3, false⟩ = 2 ^ 64 - (10 - 3) ∧
      1 ≤ Span.duration ⟨"get", 1, 10, 3, false⟩) ∧
    Span.duration ⟨"get", 1, 10, 3, false⟩ = 18446744073709551609 ∧
    Span.duration ⟨"get", 1, 3, 10, false⟩ = 7 :=
  ⟨⟨by decide, by decide⟩,
   (C12_duration_wraps ⟨"get", 1, 10, 3, false⟩ (by decide) (by decide)).2.2.2 (by decide),
   by decide, by decide⟩

end trace

end lcb
